import Mathlib

/-!
Verification of the classical-side pipeline of the Quantum Phase Estimation
algorithm (`qiskit_aqua/algorithms/single_sample/qpe/qpe.py`): operator
normalization (`QPE._setup_qpe`), evolution slicing
(`QPE._construct_qpe_evolution`), and result decoding (`QPE._compute_energy`).

Modelling conventions: term coefficients are rationals (the idealization of
the Python floats; a Hermitian operator has real Pauli coefficients, so the
`.real` projection of the code is the identity here); fallible code returns
`Except`; the incremental mutation of `self._ret` is explicit state passing;
the opaque circuit-building collaborators (initial state, controlled
evolution, inverse transform) are outside the embedded fragment, which keeps
exactly the data math the source performs on coefficients and bitstrings.
-/

/-- A Pauli descriptor: the pair of boolean vectors `z`, `x` of qiskit's
`Pauli(z, x)`, marking which qubits carry a Z-type and an X-type factor. -/
structure PauliDesc where
  z : List Bool
  x : List Bool
deriving DecidableEq

/-- A weighted Pauli term, one entry `[coeff, Pauli]` of `Operator.paulis`. -/
structure WPTerm where
  coef : ℚ
  pauli : PauliDesc
deriving DecidableEq

/-- An operator as the ordered list of its weighted Pauli terms. -/
abbrev Operator := List WPTerm

/-- The identity test of `_setup_qpe`:
`np.all(np.logical_not(p[1].z)) and np.all(np.logical_not(p[1].x))`. -/
def PauliDesc.isId (d : PauliDesc) : Bool :=
  d.z.all (fun b => !b) && d.x.all (fun b => !b)

/-- The all-zero descriptor `Pauli(np.zeros(n), np.zeros(n))` over `n` qubits. -/
def identityDesc (n : ℕ) : PauliDesc :=
  ⟨List.replicate n false, List.replicate n false⟩

/-- `num_qubits`, read off the descriptor length of the first term. -/
def Operator.numQubits : Operator → ℕ
  | [] => 0
  | t :: _ => t.pauli.z.length

/-- Modelled from the spec: the merge step of `Operator._simplify_paulis`
(the `Operator` class is not among the given sources). A term whose Pauli
descriptor already occurs has its coefficient added to that occurrence;
otherwise the term is appended. -/
def mergeTerm : List WPTerm → WPTerm → List WPTerm
  | [], t => [t]
  | u :: rest, t =>
    if u.pauli = t.pauli then ⟨u.coef + t.coef, u.pauli⟩ :: rest
    else u :: mergeTerm rest t

/-- Modelled from the spec: `Operator._simplify_paulis` merges duplicate
Pauli descriptors, summing their coefficients, keeping first-occurrence
order. -/
def simplify_paulis (op : Operator) : Operator :=
  op.foldl mergeTerm []

/-- Modelled from the spec: `Operator.__iadd__` (`self._operator +=
translation_op`) merges the right operand's terms into the left operand. -/
def opAdd (a b : Operator) : Operator :=
  b.foldl mergeTerm a

/-- `self._ret['translation'] = sum([abs(p[0]) for p in self._operator.paulis])`. -/
def translationOf (op : Operator) : ℚ :=
  (op.map (fun t => |t.coef|)).sum

/-- `self._ret['stretch'] = 0.5 / self._ret['translation']`. -/
def stretchOf (op : Operator) : ℚ :=
  (1 / 2) / translationOf op

/-- The `translation_op` of `_setup_qpe`: `translation` times the all-zero
Pauli, simplified. -/
def translationOp (op : Operator) : Operator :=
  simplify_paulis [⟨translationOf op, identityDesc op.numQubits⟩]

/-- The operator transformation of `_setup_qpe`: simplify, add
`translation * Identity`, then multiply every coefficient by `stretch`. -/
def normalizeOp (op : Operator) : Operator :=
  (opAdd (simplify_paulis op) (translationOp op)).map
    (fun u => ⟨u.coef * stretchOf op, u.pauli⟩)

/-- The abort conditions of the pipeline. -/
inductive QPEError where
  | divideByZero
  | multipleIdentity
  | unrecognizedMode (mode : String)
  | incompatibleBackend
  | emptyHistogram
deriving DecidableEq

/-- The identity-scan loop of `_setup_qpe`: walk the term list keeping the
count of identity terms seen; on each identity term found, fault if it is
the second one, otherwise record its coefficient as the ancilla phase
coefficient. -/
def identityScanAux : List WPTerm → ℕ → ℚ → Except QPEError ℚ
  | [], _, c => .ok c
  | t :: rest, k, c =>
    if t.pauli.isId then
      if k + 1 > 1 then .error .multipleIdentity
      else identityScanAux rest (k + 1) t.coef
    else identityScanAux rest k c

/-- The identity scan started with `num_identities = 0`; the second argument
is the incoming `self._ancilla_phase_coef` (initialized to `1`). -/
def identityScan (l : List WPTerm) (c : ℚ) : Except QPEError ℚ :=
  identityScanAux l 0 c

/-- Number of identity terms in a term list. -/
def countId (l : List WPTerm) : ℕ :=
  (l.filter (fun t => t.pauli.isId)).length

/-- The coefficient of the first identity term, if any. -/
def identityCoeff (l : List WPTerm) : Option ℚ :=
  (l.find? (fun t => t.pauli.isId)).map (fun t => t.coef)

/-- Multiply every term's coefficient by a duration factor. -/
def scaleTerms (l : List WPTerm) (lam : ℚ) : List WPTerm :=
  l.map (fun u => ⟨lam * u.coef, u.pauli⟩)

/-- Modelled from the spec: `Operator._suzuki_expansion_slice_pauli_list` is
not among the given sources. Per §4.2, order 1 is the plain term list over
the full duration, and each higher order nests scaled copies of the
next-lower-order decomposition in the symmetric pattern (doubled side
copies around a middle copy), with the fractional durations summing to the
total duration. -/
def suzuki_expansion_slice_pauli_list (l : List WPTerm) (lam : ℚ) : ℕ → List WPTerm
  | 0 => scaleTerms l lam
  | 1 => scaleTerms l lam
  | k + 2 =>
    let pk : ℚ := 1 / (4 * (k + 2) - 2)
    let side := suzuki_expansion_slice_pauli_list l (lam * pk) (k + 1)
    side ++ side ++
      suzuki_expansion_slice_pauli_list l (lam * (1 - 4 * pk)) (k + 1) ++
      side ++ side

/-- The slicing decision of `_construct_qpe_evolution`: a single-term list
is used unchanged; otherwise `trotter` keeps the list, `suzuki` expands it
(with `lam_coef = 1`), and any other mode raises `ValueError`. -/
def slicePauliList (l : List WPTerm) (mode : String) (order : ℕ) :
    Except QPEError (List WPTerm) :=
  if l.length = 1 then .ok l
  else if mode = "trotter" then .ok l
  else if mode = "suzuki" then .ok (suzuki_expansion_slice_pauli_list l 1 order)
  else .error (.unrecognizedMode mode)

/-- The fields of `self._ret`, each `none` until the code assigns it. -/
structure RetState where
  translation : Option ℚ
  stretch : Option ℚ
  measurements : Option (List (ℕ × List Bool))
  top_measurement_label : Option (List Bool)
  top_measurement_decimal : Option ℚ
  energy : Option ℚ
deriving DecidableEq

/-- `self._ret = {}` of `__init__`. -/
def emptyRet : RetState :=
  ⟨none, none, none, none, none, none⟩

/-- `QPE._setup_qpe`, with the incremental writes to `self._ret` made
explicit: `translation` is stored, the zero check is Python's
`ZeroDivisionError` on `0.5 / 0.0`, `stretch` is stored, the operator is
normalized and scanned for identity terms, and the slicing decision of the
assembly stage is taken (its circuit-building side effects are external).
Returns the ret mapping as left after the call together with either the
error raised or the normalized operator, ancilla phase coefficient,
translation and stretch. -/
def setup_qpe (op : Operator) (grouping : List WPTerm → List WPTerm)
    (mode : String) (order : ℕ) (phase0 : ℚ) (ret : RetState) :
    RetState × Except QPEError (Operator × ℚ × ℚ × ℚ) :=
  let t := translationOf op
  let ret1 := { ret with translation := some t }
  if t = 0 then (ret1, .error .divideByZero)
  else
    let s := stretchOf op
    let ret2 := { ret1 with stretch := some s }
    let opN := normalizeOp op
    match identityScan opN phase0 with
    | .error e => (ret2, .error e)
    | .ok phase =>
      match slicePauliList (grouping opN) mode order with
      | .error e => (ret2, .error e)
      | .ok _ => (ret2, .ok (opN, phase, t, s))

/-- `energy = retval / stretch - translation` of `_compute_energy`. -/
def energyOf (d s t : ℚ) : ℚ :=
  d / s - t

/-- Python string `<` on equal-alphabet bitstrings of `'0'`/`'1'` characters:
lexicographic with the empty string least and `'0' < '1'`; this is its
reflexive closure `<=`. -/
def bsLe : List Bool → List Bool → Bool
  | [], _ => true
  | _ :: _, [] => false
  | a :: as, b :: bs => if a = b then bsLe as bs else (!a && b)

/-- Python tuple comparison on the `(count, bitstring)` pairs that
`sorted(...)` orders: by count first, then by bitstring. -/
def pairLe (p q : ℕ × List Bool) : Bool :=
  if p.1 = q.1 then bsLe p.2 q.2 else decide (p.1 < q.1)

/-- `pairLe` as a relation, for sorting. -/
def PairLe (p q : ℕ × List Bool) : Prop :=
  pairLe p q = true

instance : DecidableRel PairLe :=
  fun p q => inferInstanceAs (Decidable (pairLe p q = true))

/-- `rets = sorted([(rd[k], k) for k in rd])[::-1]`: count/bitstring pairs
sorted ascending by Python tuple order, then reversed. -/
def sortedCounts (hist : List (List Bool × ℕ)) : List (ℕ × List Bool) :=
  (List.insertionSort PairLe (hist.map (fun kc => (kc.2, kc.1)))).reverse

/-- The binary-fraction decode of `_compute_energy`:
`sum([t[0] * t[1] for t in zip([1 / 2 ** p for p in range(1, n + 1)],
[int(b) for b in ret])])`. -/
def binaryFraction (bits : List Bool) (n : ℕ) : ℚ :=
  ((((List.range n).map (fun p => (1 : ℚ) / 2 ^ (p + 1))).zip
      (bits.map (fun b => if b then (1 : ℚ) else 0))).map
    (fun w => w.1 * w.2)).sum

/-- The spec's decode formula, written as §4.4 states it:
`decimal = Σ bit[p-1] * 2^-p` over `p = 1 .. num_ancillae`. -/
def specBinaryFraction (bits : List Bool) (n : ℕ) : ℚ :=
  ((List.range n).map
    (fun p => if bits.getD p false then (1 : ℚ) / 2 ^ (p + 1) else 0)).sum

/-- The decoding tail of `QPE._compute_energy`: sort the histogram, take
the top pair, reverse its bitstring, decode it as a binary fraction, and
store measurements, label, decimal and energy in the ret mapping. An empty
histogram has no `rets[0]` (Python `IndexError`). -/
def compute_energy_decode (hist : List (List Bool × ℕ)) (n : ℕ) (s t : ℚ)
    (ret : RetState) : RetState × Except QPEError Unit :=
  match sortedCounts hist with
  | [] => (ret, .error .emptyHistogram)
  | top :: rest =>
    let lbl := top.2.reverse
    let d := binaryFraction lbl n
    ({ ret with
        measurements := some (top :: rest),
        top_measurement_label := some lbl,
        top_measurement_decimal := some d,
        energy := some (energyOf d s t) }, .ok ())

/-- `QPE.run` / `QPE._compute_energy`: set up (aborting on its errors), fail
on a statevector-only backend, otherwise decode the externally produced
histogram. The initial ancilla phase coefficient is the `1` set by
`__init__`. -/
def runQPE (op : Operator) (grouping : List WPTerm → List WPTerm)
    (mode : String) (order numAncillae : ℕ) (svBackend : Bool)
    (hist : List (List Bool × ℕ)) : RetState × Except QPEError Unit :=
  match setup_qpe op grouping mode order 1 emptyRet with
  | (r, .error e) => (r, .error e)
  | (r, .ok (_, _, t, s)) =>
    if svBackend then (r, .error .incompatibleBackend)
    else compute_energy_decode hist numAncillae s t r

/-- The five recognized configuration options. -/
structure QPEConfig where
  num_time_slices : ℕ
  paulis_grouping : String
  expansion_mode : String
  expansion_order : ℕ
  num_ancillae : ℕ
deriving DecidableEq

/-- The defaults declared in `QPE.CONFIGURATION`'s input schema. -/
def configDefaults : QPEConfig :=
  ⟨1, "random", "suzuki", 2, 1⟩

/-- The defaults of the direct constructor `QPE.__init__`. -/
def initDefaults : QPEConfig :=
  ⟨1, "random", "trotter", 1, 1⟩

/-- A one-qubit single-Z-term operator, coefficient `1`. -/
def zTermOp : Operator :=
  [⟨1, ⟨[true], [false]⟩⟩]

/-- A one-qubit operator whose only coefficient is `0`. -/
def zeroOp : Operator :=
  [⟨0, ⟨[true], [false]⟩⟩]

/-- An (unsimplified) list with two identity terms. -/
def twoIdOp : Operator :=
  [⟨1, ⟨[false], [false]⟩⟩, ⟨2, ⟨[false], [false]⟩⟩]

/-- Helper: the translation of an operator with all-zero coefficients is 0. -/
theorem translationOf_eq_zero {op : Operator} (h : ∀ u ∈ op, u.coef = 0) :
    translationOf op = 0 := by
  refine List.sum_eq_zero ?_
  intro x hx
  obtain ⟨u, hu, rfl⟩ := List.mem_map.mp hx
  simp [h u hu]

/-- C2: with translation `t ≠ 0` and stretch `s = 0.5 / t`, the decoder's
energy formula is `d / s - t` for every decimal `d`; it inverts the affine
normalization exactly (`d = s * (lam + t)` decodes back to `lam`); the
decoding tail stores `energyOf d s t` in the `energy` field; and for
`t = 2`, `s = 1/4`, `d = 1/4` the energy is `-1`. -/
theorem c2_energy_formula_inverts (t : ℚ) (ht : t ≠ 0) (s : ℚ)
    (hs : s = (1 / 2) / t) :
    (∀ d, energyOf d s t = d / s - t) ∧
    (∀ lam, energyOf (s * (lam + t)) s t = lam) ∧
    (∀ hist n ret r top rest, sortedCounts hist = top :: rest →
      compute_energy_decode hist n s t ret = (r, .ok ()) →
      r.energy = some (energyOf (binaryFraction top.2.reverse n) s t)) ∧
    energyOf (1 / 4) (1 / 4) 2 = -1 := by
  have hs0 : s ≠ 0 := by
    rw [hs]
    exact div_ne_zero (by norm_num) ht
  refine ⟨fun d => rfl, fun lam => ?_, ?_, by norm_num [energyOf]⟩
  · rw [energyOf, mul_comm, mul_div_assoc, div_self hs0, mul_one,
      add_sub_cancel_right]
  · intro hist n ret r top rest htop hdec
    rw [compute_energy_decode, htop] at hdec
    rw [(Prod.mk.injEq _ _ _ _).mp hdec |>.1.symm]

/-- C2 witness: the concrete round trip of the claim,
`translation = 2`, `stretch = 1/4`, `decimal = 1/4`, `energy = -1`, and the
inversion at eigenvalue `-1`. -/
theorem c2_witness :
    energyOf (1 / 4) (1 / 4) 2 = -1 ∧
    energyOf ((1 / 4) * (-1 + 2)) (1 / 4) 2 = -1 :=
  ⟨(c2_energy_formula_inverts 2 (by norm_num) (1 / 4) (by norm_num)).2.2.2,
   (c2_energy_formula_inverts 2 (by norm_num) (1 / 4) (by norm_num)).2.1 (-1)⟩

/-- C8: a term list of length one is returned unchanged by the slicer, for
every expansion mode (recognized or not) and every expansion order. -/
theorem c8_single_term_unchanged (l : List WPTerm) (mode : String)
    (order : ℕ) (h : l.length = 1) :
    slicePauliList l mode order = .ok l := by
  rw [slicePauliList, if_pos h]

/-- C8 witness: a one-term list passes through untouched even with an
unrecognized mode and a large order. -/
theorem c8_witness :
    slicePauliList [⟨1, ⟨[true], [false]⟩⟩] "qdrift" 7 =
      .ok [⟨1, ⟨[true], [false]⟩⟩] :=
  c8_single_term_unchanged _ _ _ rfl

/-- C9 counterexample: the direct constructor path does not default to
`suzuki` / order 2 — `QPE.__init__` declares `expansion_mode='trotter',
expansion_order=1`. -/
theorem c9_counterexample :
    initDefaults.expansion_mode = "trotter" ∧
    initDefaults.expansion_mode ≠ "suzuki" ∧
    initDefaults.expansion_order = 1 ∧
    initDefaults.expansion_order ≠ 2 := by
  exact ⟨rfl, by decide, rfl, by decide⟩

/-- C9 (amended): the configuration schema declares defaults
`expansion_mode = 'suzuki'`, `expansion_order = 2` (the framework
construction path), while the direct constructor defaults to
`'trotter'` / `1`. -/
theorem c9_defaults_amended :
    configDefaults.expansion_mode = "suzuki" ∧
    configDefaults.expansion_order = 2 ∧
    initDefaults.expansion_mode = "trotter" ∧
    initDefaults.expansion_order = 1 :=
  ⟨rfl, rfl, rfl, rfl⟩

/-- C3: an operator all of whose coefficients are zero aborts the run with
the divide-by-zero fault of `0.5 / translation`, and no energy value is
ever produced. -/
theorem c3_zero_operator_faults (op : Operator)
    (grouping : List WPTerm → List WPTerm) (mode : String)
    (order numAncillae : ℕ) (svBackend : Bool) (hist : List (List Bool × ℕ))
    (h : ∀ u ∈ op, u.coef = 0) :
    (runQPE op grouping mode order numAncillae svBackend hist).2 =
      .error .divideByZero ∧
    (runQPE op grouping mode order numAncillae svBackend hist).1.energy =
      none := by
  have ht : translationOf op = 0 := translationOf_eq_zero h
  have hsetup : setup_qpe op grouping mode order 1 emptyRet =
      ({ emptyRet with translation := some 0 }, .error .divideByZero) := by
    simp [setup_qpe, ht]
  rw [runQPE, hsetup]
  exact ⟨rfl, rfl⟩

/-- C3 witness: the concrete zero operator aborts with the divide-by-zero
fault and leaves no energy entry. -/
theorem c3_witness :
    (runQPE zeroOp id "trotter" 1 1 false []).2 = .error .divideByZero ∧
    (runQPE zeroOp id "trotter" 1 1 false []).1.energy = none :=
  c3_zero_operator_faults zeroOp id "trotter" 1 1 false [] (by
    intro u hu
    rcases List.mem_singleton.mp hu with rfl
    rfl)

/-- C4 counterexample: after the divide-by-zero abort on the zero operator
the result mapping is not empty — it already holds the `translation`
field (set to `0` before the failing division), contradicting "the result
mapping contains no fields after the abort". -/
theorem c4_counterexample :
    (setup_qpe zeroOp id "suzuki" 2 1 emptyRet).2 = .error .divideByZero ∧
    (setup_qpe zeroOp id "suzuki" 2 1 emptyRet).1.translation = some 0 ∧
    (setup_qpe zeroOp id "suzuki" 2 1 emptyRet).1.translation ≠ none := by
  have hz : translationOf zeroOp = 0 := by
    norm_num [translationOf, zeroOp]
  refine ⟨?_, ?_, ?_⟩ <;> simp [setup_qpe, hz, emptyRet]

/-- C4 (amended): whenever normalization or assembly aborts with an error,
the run produces no decoder fields — `energy`, `measurements`,
`top_measurement_label`, `top_measurement_decimal` are all absent — but the
fields already computed before the failure point remain: `translation` is
recorded (and `stretch` too when the abort happens after the stretch
computation). -/
theorem c4_error_partial_state_amended (op : Operator)
    (grouping : List WPTerm → List WPTerm) (mode : String) (order : ℕ)
    (phase0 : ℚ) (e : QPEError)
    (h : (setup_qpe op grouping mode order phase0 emptyRet).2 = .error e) :
    (setup_qpe op grouping mode order phase0 emptyRet).1.energy = none ∧
    (setup_qpe op grouping mode order phase0 emptyRet).1.measurements =
      none ∧
    (setup_qpe op grouping mode order phase0 emptyRet).1.top_measurement_label
      = none ∧
    (setup_qpe op grouping mode order phase0
      emptyRet).1.top_measurement_decimal = none ∧
    (setup_qpe op grouping mode order phase0 emptyRet).1.translation =
      some (translationOf op) ∧
    (translationOf op = 0 →
      (setup_qpe op grouping mode order phase0 emptyRet).1.stretch = none) ∧
    (translationOf op ≠ 0 →
      (setup_qpe op grouping mode order phase0 emptyRet).1.stretch =
        some (stretchOf op)) := by
  by_cases h0 : translationOf op = 0
  · simp [setup_qpe, h0, emptyRet]
  · rcases hscan : identityScan (normalizeOp op) phase0 with e1 | phase
    · simp [setup_qpe, h0, hscan, emptyRet]
    · rcases hsl : slicePauliList (grouping (normalizeOp op)) mode order
        with e2 | l
      · simp [setup_qpe, h0, hscan, hsl, emptyRet]
      · simp [setup_qpe, h0, hscan, hsl, emptyRet] at h

/-- Helper: identity-term count of a cons with an identity head. -/
theorem countId_cons_id {t : WPTerm} (rest : List WPTerm)
    (h : t.pauli.isId = true) : countId (t :: rest) = countId rest + 1 := by
  simp [countId, List.filter_cons, h]

/-- Helper: identity-term count of a cons with a non-identity head. -/
theorem countId_cons_nid {t : WPTerm} (rest : List WPTerm)
    (h : t.pauli.isId = false) : countId (t :: rest) = countId rest := by
  simp [countId, List.filter_cons, h]

/-- Helper: once an identity term has been counted, finding any further
identity term faults. -/
theorem identityScanAux_error_of_pos (l : List WPTerm) :
    ∀ k c, 1 ≤ k → 1 ≤ countId l →
    identityScanAux l k c = .error .multipleIdentity := by
  induction l with
  | nil => intro k c _ hc; simp [countId] at hc
  | cons t rest ih =>
    intro k c hk hc
    by_cases hid : t.pauli.isId = true
    · have h1 : k + 1 > 1 := by omega
      simp [identityScanAux, hid, h1]
    · rw [Bool.not_eq_true] at hid
      rw [countId_cons_nid rest hid] at hc
      simpa [identityScanAux, hid] using ih k c hk hc

/-- C5: a term list containing more than one identity Pauli term makes the
identity scan of the Normalizer fault with the multiple-identity
`RuntimeError` rather than pick one of the terms, whatever the incoming
phase coefficient. -/
theorem c5_multiple_identity_faults (l : List WPTerm) (c : ℚ)
    (h : 2 ≤ countId l) :
    identityScan l c = .error .multipleIdentity := by
  rw [identityScan]
  induction l generalizing c with
  | nil => simp [countId] at h
  | cons t rest ih =>
    by_cases hid : t.pauli.isId = true
    · rw [countId_cons_id rest hid] at h
      simpa [identityScanAux, hid] using
        identityScanAux_error_of_pos rest 1 t.coef le_rfl (by omega)
    · rw [Bool.not_eq_true] at hid
      rw [countId_cons_nid rest hid] at h
      simpa [identityScanAux, hid] using ih c h

/-- C5 witness: a concrete two-identity-term list faults. -/
theorem c5_witness : identityScan twoIdOp 1 = .error .multipleIdentity :=
  c5_multiple_identity_faults twoIdOp 1 (by decide)

/-- Helper: the all-zero descriptor passes the identity test. -/
theorem isId_identityDesc (n : ℕ) : (identityDesc n).isId = true := by
  rw [identityDesc, PauliDesc.isId]
  simp only [Bool.and_eq_true, List.all_eq_true]
  refine ⟨fun b hb => ?_, fun b hb => ?_⟩ <;>
    simp [List.eq_of_mem_replicate hb]

/-- Helper: merging a term always leaves a term carrying its Pauli
descriptor in the list. -/
theorem mergeTerm_exists_pauli (l : List WPTerm) (t : WPTerm) :
    ∃ v ∈ mergeTerm l t, v.pauli = t.pauli := by
  induction l with
  | nil => exact ⟨t, by simp [mergeTerm], rfl⟩
  | cons u rest ih =>
    by_cases h : u.pauli = t.pauli
    · exact ⟨⟨u.coef + t.coef, u.pauli⟩, by simp [mergeTerm, h], h⟩
    · obtain ⟨v, hv, hvp⟩ := ih
      exact ⟨v, by simp [mergeTerm, h, hv], hvp⟩

/-- Helper: merging a term whose descriptor is new appends it. -/
theorem mergeTerm_of_no_match (l : List WPTerm) (t : WPTerm)
    (h : ∀ u ∈ l, u.pauli ≠ t.pauli) : mergeTerm l t = l ++ [t] := by
  induction l with
  | nil => rfl
  | cons u rest ih =>
    rw [mergeTerm, if_neg (h u (by simp)), ih (fun v hv => h v (by simp [hv]))]
    rfl

/-- Helper: a list has no identity term exactly when its identity count
is zero. -/
theorem countId_zero_iff (l : List WPTerm) :
    countId l = 0 ↔ ∀ u ∈ l, u.pauli.isId = false := by
  rw [countId, List.length_eq_zero, List.filter_eq_nil_iff]
  simp

/-- Helper: the first identity coefficient of a scaled list that ends in
its only identity term. -/
theorem identityCoeff_append_id (l : List WPTerm) (x : WPTerm) (s : ℚ)
    (hl : ∀ u ∈ l, u.pauli.isId = false) (hx : x.pauli.isId = true) :
    identityCoeff
      ((l ++ [x]).map (fun u => (⟨u.coef * s, u.pauli⟩ : WPTerm))) =
      some (x.coef * s) := by
  induction l with
  | nil => simp [identityCoeff, List.find?_cons, hx]
  | cons u rest ih =>
    have hu : u.pauli.isId = false := hl u (by simp)
    rw [List.cons_append, List.map_cons, identityCoeff, List.find?_cons]
    simp only [hu]
    exact ih (fun v hv => hl v (by simp [hv]))

/-- C1 counterexample: for the single-term operator `[(1, Z)]` the
normalized operator is `[(1/2, Z), (1/2, I)]`, whose coefficient magnitude
sum is `1`, not `0.5`. -/
theorem c1_counterexample :
    translationOf (normalizeOp zTermOp) = 1 ∧
    translationOf (normalizeOp zTermOp) ≠ 1 / 2 := by
  have h : normalizeOp zTermOp =
      [⟨1 / 2, ⟨[true], [false]⟩⟩, ⟨1 / 2, ⟨[false], [false]⟩⟩] := by
    norm_num [normalizeOp, zTermOp, simplify_paulis, opAdd, translationOp,
      mergeTerm, translationOf, stretchOf, identityDesc, Operator.numQubits]
  rw [h]
  constructor <;> norm_num [translationOf, abs_of_nonneg]

/-- C1 (amended): for every nonzero operator the normalization satisfies
`stretch * translation = 0.5` exactly, and the coefficient the added
identity term carries after stretching is exactly `0.5` whenever the
simplified input had no identity term of its own (the coefficient magnitude
sum of the whole normalized operator is in general larger — see the
counterexample). -/
theorem c1_normalization_amended (op : Operator)
    (ht : translationOf op ≠ 0) :
    stretchOf op * translationOf op = 1 / 2 ∧
    (countId (simplify_paulis op) = 0 →
      identityCoeff (normalizeOp op) = some (1 / 2)) := by
  constructor
  · rw [stretchOf]
    exact div_mul_cancel₀ _ ht
  · intro h0
    have hx : (⟨translationOf op,
        identityDesc op.numQubits⟩ : WPTerm).pauli.isId = true :=
      isId_identityDesc _
    have hl : ∀ u ∈ simplify_paulis op, u.pauli.isId = false :=
      (countId_zero_iff _).mp h0
    have hne : ∀ u ∈ simplify_paulis op,
        u.pauli ≠ identityDesc op.numQubits := by
      intro u hu heq
      have hfalse := hl u hu
      rw [heq, isId_identityDesc] at hfalse
      exact absurd hfalse (by simp)
    have hadd : opAdd (simplify_paulis op) (translationOp op) =
        mergeTerm (simplify_paulis op)
          ⟨translationOf op, identityDesc op.numQubits⟩ := rfl
    rw [normalizeOp, hadd, mergeTerm_of_no_match _ _ hne,
      identityCoeff_append_id _ _ _ hl hx]
    rw [mul_comm, stretchOf]
    rw [div_mul_cancel₀ _ ht]

/-- C1 witness: the amended invariant at the concrete operator `[(1, Z)]`. -/
theorem c1_witness :
    stretchOf zTermOp * translationOf zTermOp = 1 / 2 ∧
    (countId (simplify_paulis zTermOp) = 0 →
      identityCoeff (normalizeOp zTermOp) = some (1 / 2)) :=
  c1_normalization_amended zTermOp (by norm_num [translationOf, zTermOp])

/-- Helper: scanning a list without identity terms keeps the incoming
phase coefficient. -/
theorem identityScanAux_ok_of_no_id (l : List WPTerm) :
    ∀ k c, countId l = 0 → identityScanAux l k c = .ok c := by
  induction l with
  | nil => intro k c _; rfl
  | cons t rest ih =>
    intro k c h
    by_cases hid : t.pauli.isId = true
    · rw [countId_cons_id rest hid] at h
      omega
    · rw [Bool.not_eq_true] at hid
      rw [countId_cons_nid rest hid] at h
      simpa [identityScanAux, hid] using ih k c h

/-- Helper: a member identity term makes the identity count positive. -/
theorem countId_pos_of_mem {u : WPTerm} {l : List WPTerm} (hu : u ∈ l)
    (hid : u.pauli.isId = true) : 1 ≤ countId l := by
  rw [countId]
  exact List.length_pos.mpr
    (List.ne_nil_of_mem (List.mem_filter.mpr ⟨hu, hid⟩))

/-- Helper: a scan that returns without faulting saw at most one identity
term, and, when it saw one, started with a zero count. -/
theorem identityScanAux_ok_count (l : List WPTerm) :
    ∀ k c c', identityScanAux l k c = .ok c' →
    countId l ≤ 1 ∧ (1 ≤ countId l → k = 0) := by
  induction l with
  | nil => intro k c c' _; simp [countId]
  | cons t rest ih =>
    intro k c c' h
    by_cases hid : t.pauli.isId = true
    · by_cases hk : k + 1 > 1
      · simp [identityScanAux, hid, hk] at h
      · rw [identityScanAux] at h
        simp only [hid, if_true, if_neg hk] at h
        obtain ⟨hle, himp⟩ := ih (k + 1) t.coef c' h
        have hz : countId rest = 0 := by
          by_cases h1 : 1 ≤ countId rest
          · omega
          · omega
        rw [countId_cons_id rest hid, hz]
        omega
    · rw [Bool.not_eq_true] at hid
      rw [identityScanAux] at h
      simp only [hid, Bool.false_eq_true, if_false] at h
      rw [countId_cons_nid rest hid]
      exact ih k c c' h

/-- Helper: when the list holds exactly one identity term, a non-faulting
scan returns that term's coefficient. -/
theorem identityScanAux_ok_coef (l : List WPTerm) :
    ∀ k c c' u, identityScanAux l k c = .ok c' → u ∈ l →
    u.pauli.isId = true → countId l = 1 → c' = u.coef := by
  induction l with
  | nil => intro k c c' u _ hu; exact absurd hu (List.not_mem_nil u)
  | cons t rest ih =>
    intro k c c' u h hu hid h1
    by_cases htid : t.pauli.isId = true
    · by_cases hk : k + 1 > 1
      · simp [identityScanAux, htid, hk] at h
      · rw [identityScanAux] at h
        simp only [htid, if_true, if_neg hk] at h
        rw [countId_cons_id rest htid] at h1
        have hz : countId rest = 0 := by omega
        have hc' : c' = t.coef := by
          have := identityScanAux_ok_of_no_id rest (k + 1) t.coef hz
          rw [this] at h
          exact (Except.ok.inj h).symm
        rcases List.mem_cons.mp hu with rfl | hurest
        · exact hc'
        · exact absurd (countId_pos_of_mem hurest hid) (by omega)
    · rw [Bool.not_eq_true] at htid
      have hut : u ≠ t := by
        intro heq
        rw [heq, htid] at hid
        exact absurd hid (by simp)
      have hurest : u ∈ rest := by
        rcases List.mem_cons.mp hu with heq | hr
        · exact absurd heq hut
        · exact hr
      rw [identityScanAux] at h
      simp only [htid, Bool.false_eq_true, if_false] at h
      rw [countId_cons_nid rest htid] at h1
      exact ih k c c' u h hurest hid h1

/-- Helper: the normalized operator always contains an identity term (the
one the translation step adds or merges into). -/
theorem normalizeOp_exists_id (op : Operator) :
    ∃ u ∈ normalizeOp op, u.pauli.isId = true := by
  obtain ⟨v, hv, hvp⟩ := mergeTerm_exists_pauli (simplify_paulis op)
    ⟨translationOf op, identityDesc op.numQubits⟩
  refine ⟨⟨v.coef * stretchOf op, v.pauli⟩, ?_, ?_⟩
  · exact List.mem_map_of_mem _ hv
  · rw [hvp]
    exact isId_identityDesc _

/-- Helper: with exactly one identity term present, `identityCoeff` returns
the coefficient of any identity member. -/
theorem identityCoeff_of_countId_one {l : List WPTerm} {u : WPTerm}
    (h1 : countId l = 1) (hu : u ∈ l) (hid : u.pauli.isId = true) :
    identityCoeff l = some u.coef := by
  have hsome : (l.find? (fun t => t.pauli.isId)).isSome :=
    List.find?_isSome.mpr ⟨u, hu, hid⟩
  obtain ⟨w, hw⟩ := Option.isSome_iff_exists.mp hsome
  obtain ⟨a, ha⟩ := List.length_eq_one.mp h1
  have huf : u ∈ l.filter (fun t => t.pauli.isId) :=
    List.mem_filter.mpr ⟨hu, hid⟩
  have hwp : w.pauli.isId = true := by
    have hp := List.find?_some hw
    simpa using hp
  have hwf : w ∈ l.filter (fun t => t.pauli.isId) :=
    List.mem_filter.mpr ⟨List.mem_of_find?_eq_some hw, hwp⟩
  rw [ha, List.mem_singleton] at huf hwf
  rw [identityCoeff, hw]
  simp [hwf, huf]

/-- Helper: what a non-faulting setup returns — the normalized operator and
the phase coefficient its identity scan produced. -/
theorem setup_qpe_ok_parts (op : Operator) (g : List WPTerm → List WPTerm)
    (mode : String) (ord : ℕ) (phase0 : ℚ) (ret0 r : RetState)
    (opN : Operator) (phase t s : ℚ)
    (h : setup_qpe op g mode ord phase0 ret0 = (r, .ok (opN, phase, t, s))) :
    opN = normalizeOp op ∧
    identityScan (normalizeOp op) phase0 = .ok phase := by
  by_cases h0 : translationOf op = 0
  · simp [setup_qpe, h0] at h
  · rcases hscan : identityScan (normalizeOp op) phase0 with e1 | ph
    · simp [setup_qpe, h0, hscan] at h
    · rcases hsl : slicePauliList (g (normalizeOp op)) mode ord with e2 | l
      · simp [setup_qpe, h0, hscan, hsl] at h
      · simp [setup_qpe, h0, hscan, hsl] at h
        obtain ⟨-, hop, hph, -⟩ := h
        refine ⟨hop.symm, ?_⟩
        rw [← hph]

/-- C7: whenever setup completes without fault, the normalized operator in
fact contains an identity term and the ancilla phase coefficient equals
its (real) coefficient; in particular, had the normalized operator no
identity term the phase would be `0` — vacuously, since the setup always
leaves one. -/
theorem c7_identity_phase (op : Operator) (g : List WPTerm → List WPTerm)
    (mode : String) (ord : ℕ) (r : RetState) (opN : Operator)
    (phase t s : ℚ)
    (h : setup_qpe op g mode ord 1 emptyRet = (r, .ok (opN, phase, t, s))) :
    (identityCoeff opN = none → phase = 0) ∧
    identityCoeff opN = some phase := by
  obtain ⟨hop, hscan⟩ := setup_qpe_ok_parts op g mode ord 1 emptyRet r
    opN phase t s h
  subst hop
  obtain ⟨u, hu, hid⟩ := normalizeOp_exists_id op
  have hpos : 1 ≤ countId (normalizeOp op) := countId_pos_of_mem hu hid
  have hle := (identityScanAux_ok_count (normalizeOp op) 0 1 phase hscan).1
  have h1 : countId (normalizeOp op) = 1 := le_antisymm hle hpos
  have hphase : phase = u.coef :=
    identityScanAux_ok_coef (normalizeOp op) 0 1 phase u hscan hu hid h1
  have hfind : identityCoeff (normalizeOp op) = some u.coef :=
    identityCoeff_of_countId_one h1 hu hid
  constructor
  · intro hn
    rw [hfind] at hn
    exact absurd hn (by simp)
  · rw [hfind, hphase]

/-- Helper: the normalized form of the concrete operator `[(1, Z)]`. -/
theorem normalizeOp_zTermOp :
    normalizeOp zTermOp =
      [⟨1 / 2, ⟨[true], [false]⟩⟩, ⟨1 / 2, ⟨[false], [false]⟩⟩] := by
  norm_num [normalizeOp, zTermOp, simplify_paulis, opAdd, translationOp,
    mergeTerm, translationOf, stretchOf, identityDesc, Operator.numQubits]

/-- Helper: the full setup result at the concrete operator `[(1, Z)]`. -/
theorem setup_zTermOp :
    setup_qpe zTermOp id "trotter" 1 1 emptyRet =
      (⟨some 1, some (1 / 2), none, none, none, none⟩,
       .ok ([⟨1 / 2, ⟨[true], [false]⟩⟩, ⟨1 / 2, ⟨[false], [false]⟩⟩],
            1 / 2, 1, 1 / 2)) := by
  have h1 : translationOf zTermOp = 1 := by
    norm_num [translationOf, zTermOp]
  have hs : stretchOf zTermOp = 1 / 2 := by
    rw [stretchOf, h1]
    norm_num
  have hscan : identityScan
      [(⟨1 / 2, ⟨[true], [false]⟩⟩ : WPTerm), ⟨1 / 2, ⟨[false], [false]⟩⟩] 1 =
      .ok (1 / 2) := by
    simp [identityScan, identityScanAux, PauliDesc.isId]
  have hsl : slicePauliList
      [(⟨1 / 2, ⟨[true], [false]⟩⟩ : WPTerm), ⟨1 / 2, ⟨[false], [false]⟩⟩]
      "trotter" 1 =
      .ok [⟨1 / 2, ⟨[true], [false]⟩⟩, ⟨1 / 2, ⟨[false], [false]⟩⟩] := by
    simp [slicePauliList]
  simp only [setup_qpe, h1, hs, normalizeOp_zTermOp, emptyRet, id_eq]
  rw [if_neg (by norm_num : ¬(1 : ℚ) = 0)]
  simp only [hscan, hsl]

/-- Helper: the setup result at `[(1, Z)]` under an unrecognized expansion
mode — an abort after the stretch computation. -/
theorem setup_zTermOp_qdrift :
    setup_qpe zTermOp id "qdrift" 1 1 emptyRet =
      (⟨some 1, some (1 / 2), none, none, none, none⟩,
       .error (.unrecognizedMode "qdrift")) := by
  have h1 : translationOf zTermOp = 1 := by
    norm_num [translationOf, zTermOp]
  have hs : stretchOf zTermOp = 1 / 2 := by
    rw [stretchOf, h1]
    norm_num
  have hscan : identityScan
      [(⟨1 / 2, ⟨[true], [false]⟩⟩ : WPTerm), ⟨1 / 2, ⟨[false], [false]⟩⟩] 1 =
      .ok (1 / 2) := by
    simp [identityScan, identityScanAux, PauliDesc.isId]
  have hsl : slicePauliList
      [(⟨1 / 2, ⟨[true], [false]⟩⟩ : WPTerm), ⟨1 / 2, ⟨[false], [false]⟩⟩]
      "qdrift" 1 =
      .error (.unrecognizedMode "qdrift") := by
    simp [slicePauliList]
  simp only [setup_qpe, h1, hs, normalizeOp_zTermOp, emptyRet, id_eq]
  rw [if_neg (by norm_num : ¬(1 : ℚ) = 0)]
  simp only [hscan, hsl]

/-- C4 witness: the amended statement exercised at both abort phases — the
divide-by-zero abort on the zero operator (translation recorded, stretch
absent) and the unrecognized-mode abort on `[(1, Z)]` (translation and
stretch both recorded), with no decoder field in either case. -/
theorem c4_witness :
    (setup_qpe zeroOp id "suzuki" 2 1 emptyRet).1.energy = none ∧
    (setup_qpe zeroOp id "suzuki" 2 1 emptyRet).1.measurements = none ∧
    (setup_qpe zeroOp id "suzuki" 2 1 emptyRet).1.translation =
      some (translationOf zeroOp) ∧
    (setup_qpe zeroOp id "suzuki" 2 1 emptyRet).1.stretch = none ∧
    (setup_qpe zTermOp id "qdrift" 1 1 emptyRet).1.energy = none ∧
    (setup_qpe zTermOp id "qdrift" 1 1 emptyRet).1.measurements = none ∧
    (setup_qpe zTermOp id "qdrift" 1 1 emptyRet).1.top_measurement_label =
      none ∧
    (setup_qpe zTermOp id "qdrift" 1 1 emptyRet).1.top_measurement_decimal =
      none ∧
    (setup_qpe zTermOp id "qdrift" 1 1 emptyRet).1.translation =
      some (translationOf zTermOp) ∧
    (setup_qpe zTermOp id "qdrift" 1 1 emptyRet).1.stretch =
      some (stretchOf zTermOp) := by
  have hz : translationOf zeroOp = 0 := by
    norm_num [translationOf, zeroOp]
  have hz1 : translationOf zTermOp ≠ 0 := by
    norm_num [translationOf, zTermOp]
  have ha := c4_error_partial_state_amended zeroOp id "suzuki" 2 1
    .divideByZero (by simp [setup_qpe, hz])
  have hb := c4_error_partial_state_amended zTermOp id "qdrift" 1 1
    (.unrecognizedMode "qdrift") (by rw [setup_zTermOp_qdrift])
  exact ⟨ha.1, ha.2.1, ha.2.2.2.2.1, ha.2.2.2.2.2.1 hz, hb.1, hb.2.1,
    hb.2.2.1, hb.2.2.2.1, hb.2.2.2.2.1, hb.2.2.2.2.2.2 hz1⟩

/-- C7 witness: the ancilla phase coefficient produced for `[(1, Z)]` is the
coefficient `1/2` of the identity term of its normalized form. -/
theorem c7_witness :
    (identityCoeff [(⟨1 / 2, ⟨[true], [false]⟩⟩ : WPTerm),
        ⟨1 / 2, ⟨[false], [false]⟩⟩] = none → (1 / 2 : ℚ) = 0) ∧
    identityCoeff [(⟨1 / 2, ⟨[true], [false]⟩⟩ : WPTerm),
        ⟨1 / 2, ⟨[false], [false]⟩⟩] = some (1 / 2) :=
  c7_identity_phase zTermOp id "trotter" 1
    ⟨some 1, some (1 / 2), none, none, none, none⟩
    [⟨1 / 2, ⟨[true], [false]⟩⟩, ⟨1 / 2, ⟨[false], [false]⟩⟩]
    (1 / 2) 1 (1 / 2) setup_zTermOp

/-- Helper: bitstring order is reflexive. -/
theorem bsLe_refl (a : List Bool) : bsLe a a = true := by
  induction a with
  | nil => rfl
  | cons x xs ih => simp [bsLe, ih]

/-- Helper: bitstring order is total. -/
theorem bsLe_total (a : List Bool) :
    ∀ b, bsLe a b = true ∨ bsLe b a = true := by
  induction a with
  | nil => intro b; left; rfl
  | cons x xs ih =>
    intro b
    cases b with
    | nil => right; rfl
    | cons y ys =>
      by_cases h : x = y
      · subst h
        rcases ih ys with h1 | h1
        · left
          simp [bsLe, h1]
        · right
          simp [bsLe, h1]
      · cases x <;> cases y <;> simp_all [bsLe]

/-- Helper: bitstring order is transitive. -/
theorem bsLe_trans :
    ∀ a b c : List Bool, bsLe a b = true → bsLe b c = true →
    bsLe a c = true := by
  intro a
  induction a with
  | nil => intro b c _ _; rfl
  | cons x xs ih =>
    intro b c hab hbc
    cases b with
    | nil => simp [bsLe] at hab
    | cons y ys =>
      cases c with
      | nil => simp [bsLe] at hbc
      | cons z zs =>
        cases x <;> cases y <;> cases z <;> simp_all [bsLe]
        · exact ih ys zs hab hbc
        · exact ih ys zs hab hbc

/-- Helper: the pair order is reflexive. -/
theorem pairLe_refl (p : ℕ × List Bool) : pairLe p p = true := by
  simp [pairLe, bsLe_refl]

instance : IsTotal (ℕ × List Bool) PairLe := ⟨by
  intro p q
  rw [PairLe, PairLe]
  by_cases h : p.1 = q.1
  · rcases bsLe_total p.2 q.2 with h1 | h1
    · left
      simp [pairLe, h, h1]
    · right
      simp [pairLe, h.symm, h1]
  · rcases Nat.lt_or_ge p.1 q.1 with h1 | h1
    · left
      simp [pairLe, h, h1]
    · have h2 : q.1 < p.1 := lt_of_le_of_ne h1 (Ne.symm h)
      right
      simp [pairLe, Ne.symm h, h2]⟩

instance : IsTrans (ℕ × List Bool) PairLe := ⟨by
  intro p q r hpq hqr
  rw [PairLe] at hpq hqr ⊢
  rw [pairLe] at hpq hqr ⊢
  by_cases h1 : p.1 = q.1 <;> by_cases h2 : q.1 = r.1
  · rw [if_pos h1] at hpq
    rw [if_pos h2] at hqr
    rw [if_pos (h1.trans h2)]
    exact bsLe_trans _ _ _ hpq hqr
  · rw [if_neg h2] at hqr
    have hlt : q.1 < r.1 := of_decide_eq_true hqr
    have hne : p.1 ≠ r.1 := by omega
    rw [if_neg hne]
    exact decide_eq_true (by omega)
  · rw [if_neg h1] at hpq
    have hlt : p.1 < q.1 := of_decide_eq_true hpq
    have hne : p.1 ≠ r.1 := by omega
    rw [if_neg hne]
    exact decide_eq_true (by omega)
  · rw [if_neg h1] at hpq
    rw [if_neg h2] at hqr
    have hlt1 : p.1 < q.1 := of_decide_eq_true hpq
    have hlt2 : q.1 < r.1 := of_decide_eq_true hqr
    have hne : p.1 ≠ r.1 := by omega
    rw [if_neg hne]
    exact decide_eq_true (by omega)⟩

/-- Helper: the sorted measurement list is a permutation of the swapped
histogram pairs. -/
theorem sortedCounts_perm (hist : List (List Bool × ℕ)) :
    (sortedCounts hist).Perm (hist.map (fun kc => (kc.2, kc.1))) := by
  rw [sortedCounts]
  exact (List.reverse_perm _).trans (List.perm_insertionSort PairLe _)

/-- Helper: the measurement list is sorted descending in the pair order. -/
theorem sortedCounts_sorted (hist : List (List Bool × ℕ)) :
    (sortedCounts hist).Sorted (fun p q => PairLe q p) := by
  rw [sortedCounts, List.Sorted, List.pairwise_reverse]
  exact List.sorted_insertionSort PairLe _

/-- Helper: every histogram pair is below the head of the sorted list. -/
theorem sortedCounts_head_max (hist : List (List Bool × ℕ))
    (top : ℕ × List Bool) (rest : List (ℕ × List Bool))
    (hr : sortedCounts hist = top :: rest) :
    ∀ kc ∈ hist, pairLe (kc.2, kc.1) top = true := by
  intro kc hkc
  have hmem : (kc.2, kc.1) ∈ sortedCounts hist :=
    ((sortedCounts_perm hist).mem_iff).mpr
      (List.mem_map_of_mem _ hkc)
  rw [hr] at hmem
  rcases List.mem_cons.mp hmem with heq | hmem2
  · rw [heq]
    exact pairLe_refl top
  · have hsorted := sortedCounts_sorted hist
    rw [hr] at hsorted
    exact List.rel_of_sorted_cons hsorted _ hmem2

/-- Helper: the count component of a pair below another is no larger. -/
theorem count_le_of_pairLe {p q : ℕ × List Bool}
    (h : pairLe p q = true) : p.1 ≤ q.1 := by
  rw [pairLe] at h
  by_cases he : p.1 = q.1
  · exact le_of_eq he
  · rw [if_neg he] at h
    exact le_of_lt (of_decide_eq_true h)

/-- Helper: at equal counts, a pair below another has a bitstring below
the other's. -/
theorem bs_le_of_pairLe_eq {p q : ℕ × List Bool}
    (h : pairLe p q = true) (he : p.1 = q.1) : bsLe p.2 q.2 = true := by
  rw [pairLe, if_pos he] at h
  exact h

/-- Helper: the decode result once the sorted list is known nonempty. -/
theorem compute_energy_decode_eq (hist : List (List Bool × ℕ)) (n : ℕ)
    (s t : ℚ) (ret : RetState) (top : ℕ × List Bool)
    (rest : List (ℕ × List Bool)) (hr : sortedCounts hist = top :: rest) :
    compute_energy_decode hist n s t ret =
      ({ ret with
          measurements := some (top :: rest),
          top_measurement_label := some top.2.reverse,
          top_measurement_decimal := some (binaryFraction top.2.reverse n),
          energy := some (energyOf (binaryFraction top.2.reverse n) s t) },
       .ok ()) := by
  simp only [compute_energy_decode, hr]

/-- Helper: mapping a binary function over `zip (range n) bits` is mapping
over the positions, reading bits by index. -/
theorem zip_range_map :
    ∀ (bits : List Bool) (F : ℕ → Bool → ℚ) (n : ℕ), bits.length = n →
    ((List.range n).zip bits).map (fun pb => F pb.1 pb.2) =
      (List.range n).map (fun p => F p (bits.getD p false)) := by
  intro bits
  induction bits with
  | nil =>
    intro F n hn
    rw [← hn]
    rfl
  | cons b bs ih =>
    intro F n hn
    rw [← hn, List.length_cons, List.range_succ_eq_map]
    rw [List.zip_cons_cons, List.map_cons, List.map_cons]
    rw [List.zip_map_left, List.map_map]
    congr 1
    · rw [List.map_map]
      exact ih (fun p bb => F (p + 1) bb) bs.length rfl

/-- Helper: on a bitstring of the full ancilla length, the code's zip-sum
decode equals the spec's positional binary-fraction sum. -/
theorem binaryFraction_eq_spec (bits : List Bool) (n : ℕ)
    (h : bits.length = n) :
    binaryFraction bits n = specBinaryFraction bits n := by
  rw [binaryFraction, specBinaryFraction]
  rw [List.zip_map, List.map_map]
  have hz := zip_range_map bits
    (fun p bb => (1 : ℚ) / 2 ^ (p + 1) * (if bb then (1 : ℚ) else 0)) n h
  rw [show ((fun w : ℚ × ℚ => w.1 * w.2) ∘
      Prod.map (fun p => (1 : ℚ) / 2 ^ (p + 1))
        (fun b => if b then (1 : ℚ) else 0)) =
      (fun pb : ℕ × Bool =>
        (1 : ℚ) / 2 ^ (pb.1 + 1) * (if pb.2 then (1 : ℚ) else 0)) from rfl]
  rw [hz]
  refine congrArg List.sum (List.map_congr_left ?_)
  intro p hp
  by_cases hb : bits.getD p false
  · simp [hb]
  · simp [hb]

/-- C6: the decoder picks a highest-count bitstring from the histogram,
reverses it, and decodes the reversed string with the positional
binary-fraction formula `decimal = Σ bit[p-1] * 2^-p`. -/
theorem c6_decoder_top_and_decimal (hist : List (List Bool × ℕ)) (n : ℕ)
    (s t : ℚ) (ret r : RetState) (top : ℕ × List Bool)
    (rest : List (ℕ × List Bool))
    (hr : sortedCounts hist = top :: rest)
    (hlen : ∀ kc ∈ hist, List.length kc.1 = n)
    (h : compute_energy_decode hist n s t ret = (r, .ok ())) :
    (top.2, top.1) ∈ hist ∧
    (∀ kc ∈ hist, kc.2 ≤ top.1) ∧
    r.top_measurement_label = some top.2.reverse ∧
    r.top_measurement_decimal = some (binaryFraction top.2.reverse n) ∧
    binaryFraction top.2.reverse n = specBinaryFraction top.2.reverse n := by
  rw [compute_energy_decode_eq hist n s t ret top rest hr] at h
  have hrr := congrArg Prod.fst h
  simp only at hrr
  have htopmem : top ∈ sortedCounts hist := by
    rw [hr]
    exact List.mem_cons_self _ _
  have htopmap : top ∈ hist.map (fun kc => (kc.2, kc.1)) :=
    (sortedCounts_perm hist).subset htopmem
  obtain ⟨kc, hkc, hkctop⟩ := List.mem_map.mp htopmap
  have hmem : (top.2, top.1) ∈ hist := by
    rw [← hkctop]
    simpa using hkc
  have hlen2 : top.2.reverse.length = n := by
    rw [List.length_reverse, ← hkctop]
    exact hlen kc hkc
  have hmax := sortedCounts_head_max hist top rest hr
  refine ⟨hmem, fun kc2 hkc2 => count_le_of_pairLe (hmax kc2 hkc2),
    ?_, ?_, binaryFraction_eq_spec _ n hlen2⟩
  · rw [← hrr]
  · rw [← hrr]

/-- C10: the decoder's measurement list is the ascending Python-tuple sort
of the `(count, bitstring)` pairs reversed — hence sorted descending by
count with ties broken by descending bitstring order — and the selected
top pair dominates every histogram entry in that order; in particular,
among entries sharing the top count the top bitstring is the
lexicographically greatest, and the reported label is its reversal. -/
theorem c10_sort_and_tie_break (hist : List (List Bool × ℕ)) (n : ℕ)
    (s t : ℚ) (ret r : RetState) (top : ℕ × List Bool)
    (rest : List (ℕ × List Bool))
    (hr : sortedCounts hist = top :: rest)
    (h : compute_energy_decode hist n s t ret = (r, .ok ())) :
    r.measurements = some (top :: rest) ∧
    (top :: rest).Sorted (fun p q => PairLe q p) ∧
    (∀ kc ∈ hist, pairLe (kc.2, kc.1) top = true) ∧
    (∀ kc ∈ hist, kc.2 = top.1 → bsLe kc.1 top.2 = true) ∧
    r.top_measurement_label = some top.2.reverse := by
  rw [compute_energy_decode_eq hist n s t ret top rest hr] at h
  have hrr := congrArg Prod.fst h
  simp only at hrr
  have hsorted := sortedCounts_sorted hist
  rw [hr] at hsorted
  have hmax := sortedCounts_head_max hist top rest hr
  refine ⟨?_, hsorted, hmax,
    fun kc hkc he => bs_le_of_pairLe_eq (hmax kc hkc) he, ?_⟩
  · rw [← hrr]
  · rw [← hrr]

/-- The claim's example histogram `{"01": 3, "10": 5}`. -/
def exHist : List (List Bool × ℕ) :=
  [([false, true], 3), ([true, false], 5)]

/-- A tie histogram: both bitstrings measured 5 times. -/
def tieHist : List (List Bool × ℕ) :=
  [([false, true], 5), ([true, false], 5)]

/-- C6 witness: on `{"01": 3, "10": 5}` with two ancillae the decoder picks
`"10"`, reverses it to `"01"`, and decodes `0.25`. -/
theorem c6_witness :
    (([true, false], 5) ∈ exHist) ∧
    ((3 : ℕ) ≤ 5) ∧
    (⟨none, none, some [(5, [true, false]), (3, [false, true])],
        some [false, true], some (binaryFraction [false, true] 2),
        some (energyOf (binaryFraction [false, true] 2) (1 / 4) 2)⟩ :
      RetState).top_measurement_label = some [false, true] ∧
    (⟨none, none, some [(5, [true, false]), (3, [false, true])],
        some [false, true], some (binaryFraction [false, true] 2),
        some (energyOf (binaryFraction [false, true] 2) (1 / 4) 2)⟩ :
      RetState).top_measurement_decimal =
      some (binaryFraction [false, true] 2) ∧
    binaryFraction [false, true] 2 = 1 / 4 := by
  have hc := c6_decoder_top_and_decimal exHist 2 (1 / 4) 2 emptyRet
    ⟨none, none, some [(5, [true, false]), (3, [false, true])],
        some [false, true], some (binaryFraction [false, true] 2),
        some (energyOf (binaryFraction [false, true] 2) (1 / 4) 2)⟩
    (5, [true, false]) [(3, [false, true])] (by decide) (by decide)
    (compute_energy_decode_eq exHist 2 (1 / 4) 2 emptyRet
      (5, [true, false]) [(3, [false, true])] (by decide))
  exact ⟨hc.1, hc.2.1 ([false, true], 3) (by decide), hc.2.2.1,
    hc.2.2.2.1, by norm_num [binaryFraction, List.range_succ]⟩

/-- C10 witness: on the tie histogram both counts are 5; the decoder's
measurement list is `[(5, "10"), (5, "01")]`, the top bitstring is the
lexicographically greater `"10"`, and the reported label is its reversal
`"01"`. -/
theorem c10_witness :
    (⟨none, none, some [(5, [true, false]), (5, [false, true])],
        some [false, true], some (binaryFraction [false, true] 2),
        some (energyOf (binaryFraction [false, true] 2) (1 / 4) 2)⟩ :
      RetState).measurements =
      some [(5, [true, false]), (5, [false, true])] ∧
    List.Sorted (fun p q => PairLe q p)
      [(5, [true, false]), (5, [false, true])] ∧
    pairLe (5, [false, true]) (5, [true, false]) = true ∧
    bsLe [false, true] [true, false] = true ∧
    (⟨none, none, some [(5, [true, false]), (5, [false, true])],
        some [false, true], some (binaryFraction [false, true] 2),
        some (energyOf (binaryFraction [false, true] 2) (1 / 4) 2)⟩ :
      RetState).top_measurement_label = some [false, true] := by
  have hc := c10_sort_and_tie_break tieHist 2 (1 / 4) 2 emptyRet
    ⟨none, none, some [(5, [true, false]), (5, [false, true])],
        some [false, true], some (binaryFraction [false, true] 2),
        some (energyOf (binaryFraction [false, true] 2) (1 / 4) 2)⟩
    (5, [true, false]) [(5, [false, true])] (by decide)
    (compute_energy_decode_eq tieHist 2 (1 / 4) 2 emptyRet
      (5, [true, false]) [(5, [false, true])] (by decide))
  exact ⟨hc.1, hc.2.1, hc.2.2.1 ([false, true], 5) (by decide),
    hc.2.2.2.1 ([false, true], 5) (by decide) rfl, hc.2.2.2.2⟩
